import Mathlib

/-!
Verification of the maguffin stacked-pull-request engine.

This file gives a shallow embedding, in Lean, of the parts of the Rust
sources relevant to the claims under scrutiny:

* the stack data model and its operations
  (`src-tauri/src/domain/stack/mod.rs`, `src-tauri/src/github/stack_service.rs`);
* the git backend interface used by the stack service
  (`src-tauri/src/git/mod.rs`);
* the sync service change diff and cycle gating
  (`src-tauri/src/github/sync_service.rs`);
* the rate-limit state machine (`src-tauri/src/github/mod.rs`).

Rust `String` becomes `String`, `Vec` becomes `List`, `Option` becomes
`Option`, `Result<T, E>` becomes `Except E T`.  Timestamps (`DateTime<Utc>`)
are modelled as abstract `Nat` instants threaded explicitly where the code
calls `Utc::now()`; claims are stated modulo timestamps.  `uuid::Uuid` is
modelled as `Nat` (only equality is used).  File I/O performed by
`save_metadata` is modelled separately as a trace of file-system operations.
-/

namespace Maguffin

/-! ## Domain types (`domain/stack/mod.rs`) -/

/-- Status of a branch relative to its parent (`BranchStatus`). -/
inductive BranchStatus where
  | upToDate
  | needsRebase
  | conflicted
  | orphaned
  | unknown
deriving Repr, DecidableEq

/-- A branch in a stack (`StackBranch`).  `created_at` is an abstract instant. -/
structure StackBranch where
  name : String
  parent : String
  pr_number : Option Int
  status : BranchStatus
  created_at : Nat
  head_sha : Option String
deriving Repr, DecidableEq

/-- `StackBranch::new`: fresh branch with status `UpToDate` and no sha. -/
def StackBranch.new (name parent : String) (now : Nat) : StackBranch :=
  ⟨name, parent, none, .upToDate, now, none⟩

/-- `StackBranch::with_sha`. -/
def StackBranch.with_sha (b : StackBranch) (sha : String) : StackBranch :=
  { b with head_sha := some sha }

/-- A stack of related branches (`Stack`).  The id models `uuid::Uuid`. -/
structure Stack where
  id : Nat
  root : String
  branches : List StackBranch
  created_at : Nat
  updated_at : Nat
deriving Repr, DecidableEq

/-- `Stack::add_branch`: push the branch and refresh `updated_at`. -/
def Stack.add_branch (s : Stack) (b : StackBranch) (now : Nat) : Stack :=
  { s with branches := s.branches ++ [b], updated_at := now }

/-- `Stack::find_branch`: first branch with the given name. -/
def Stack.find_branch (s : Stack) (name : String) : Option StackBranch :=
  s.branches.find? (fun b => b.name = name)

/-- `Stack::children_of`: branches whose `parent` equals the given name,
in insertion order. -/
def Stack.children_of (s : Stack) (parent : String) : List StackBranch :=
  s.branches.filter (fun b => b.parent = parent)

/-- Loop body of `Stack::topological_order`, with explicit fuel standing in
for the Rust `while let Some(current) = stack.pop()` loop.  `visited` models
the `HashSet<String>`; `stack` models the `Vec` used as a LIFO stack (head =
top); `result` accumulates the emitted branches.  The fuel passed by
`Stack.topological_order` is large enough for the loop to run to completion:
each iteration pops one entry, and entries are pushed only when a name is
visited for the first time, with at most `branches.length` pushes per visit. -/
def topoLoop (branches : List StackBranch) :
    Nat → List String → List String → List StackBranch → List StackBranch
  | 0, _, _, result => result
  | _ + 1, _, [], result => result
  | fuel + 1, visited, current :: rest, result =>
    if visited.contains current then
      topoLoop branches fuel visited rest result
    else
      let visited' := current :: visited
      let kids := (branches.filter (fun b => b.parent = current)).filter
        (fun b => ¬ visited'.contains b.name)
      topoLoop branches fuel visited'
        ((kids.map (fun b => b.name)).reverse ++ rest) (result ++ kids)

/-- `Stack::topological_order`: DFS from `root` following `parent` edges. -/
def Stack.topological_order (s : Stack) : List StackBranch :=
  topoLoop s.branches ((s.branches.length + 2) * (s.branches.length + 2))
    [] [s.root] []

/-- The serialized metadata document (`StackMetadata`). -/
structure StackMetadata where
  version : Nat
  stacks' : List Stack
  last_sync : Option Nat
deriving Repr, DecidableEq

/-- `StackMetadata::default()`. -/
def StackMetadata.default : StackMetadata := ⟨1, [], none⟩

/-- `StackMetadata::find_stack`: first stack with the given id. -/
def StackMetadata.find_stack (m : StackMetadata) (id : Nat) : Option Stack :=
  m.stacks'.find? (fun s => s.id = id)

/-- `StackMetadata::find_stack_containing`. -/
def StackMetadata.find_stack_containing (m : StackMetadata) (branch : String) :
    Option Stack :=
  m.stacks'.find? (fun s => s.branches.any (fun b => b.name = branch))

/-- `StackMetadata::add_stack`. -/
def StackMetadata.add_stack (m : StackMetadata) (s : Stack) : StackMetadata :=
  { m with stacks' := m.stacks' ++ [s] }

/-! ## Git errors (`error/mod.rs`) -/

/-- `GitError` from `error/mod.rs` (the variants reachable from the modelled
code paths; `Git2` wraps a library error message). -/
inductive GitError where
  | repositoryNotFound (msg : String)
  | branch (msg : String)
  | rebaseFailed (msg : String)
  | conflict (files : List String)
  | remote (msg : String)
deriving Repr, DecidableEq

/-- Debug rendering of a `Vec<String>`, as interpolated by the
`{files:?}` format in the `Conflict` display string. -/
def debugList (files : List String) : String :=
  "[" ++ String.intercalate ", " (files.map (fun f => "\x22" ++ f ++ "\x22")) ++ "]"

/-- The `thiserror` display string of each `GitError` variant. -/
def GitError.display : GitError → String
  | .repositoryNotFound m => "Repository not found: " ++ m
  | .branch m => "Branch error: " ++ m
  | .rebaseFailed m => "Rebase failed: " ++ m
  | .conflict files => "Merge conflict in: " ++ debugList files
  | .remote m => "Remote operation failed: " ++ m

/-- `AppError::Git(e).to_string()`: the `AppError` display wraps the
`GitError` display. -/
def appErrorString (e : GitError) : String :=
  "Git operation failed: " ++ e.display

/-- Rust `str::contains(needle)`: substring test. -/
def containsSubstr (hay needle : String) : Bool :=
  decide (needle.toList <:+: hay.toList)

/-! ## Stack service metadata mutations (`github/stack_service.rs`)

The service holds the metadata document behind a lock and persists it with
`save_metadata` after each mutation.  Persistence is modelled separately
(see `save_metadata_ops`); the functions below return the new document. -/

/-- `stacks.iter_mut().find(|s| s.id == stack_id)` followed by a mutation:
apply `f` to the first stack whose id matches, leave the rest unchanged. -/
def updateStackById : List Stack → Nat → (Stack → Stack) → List Stack
  | [], _, _ => []
  | s :: rest, id, f =>
    if s.id = id then f s :: rest else s :: updateStackById rest id f

/-- `find_branch_mut(name)` followed by a mutation: apply `f` to the first
branch with the given name, leave the rest unchanged. -/
def updateBranchNamed : List StackBranch → String → (StackBranch → StackBranch) →
    List StackBranch
  | [], _, _ => []
  | b :: rest, name, f =>
    if b.name = name then f b :: rest else b :: updateBranchNamed rest name f

/-- The metadata mutation of `StackService::create_stack_branch`: the git
branch has already been created from `parent_name` (the call fails earlier
otherwise) and `head_sha` is `get_head_sha(branch_name).ok()`.  A
`StackBranch` is built and added to the first stack whose id matches
(`stacks.iter_mut().find`); if no stack matches, the document is unchanged. -/
def create_stack_branch (m : StackMetadata) (stack_id : Nat)
    (branch_name parent_name : String) (head_sha : Option String) (now : Nat) :
    StackMetadata :=
  let branch :=
    match head_sha with
    | some sha => (StackBranch.new branch_name parent_name now).with_sha sha
    | none => StackBranch.new branch_name parent_name now
  { m with stacks' :=
      updateStackById m.stacks' stack_id (fun s => s.add_branch branch now) }

/-- `StackService::remove_branch`: every stack retains only branches whose
name differs from the given one. -/
def remove_branch (m : StackMetadata) (branch_name : String) : StackMetadata :=
  { m with stacks' :=
      m.stacks'.map (fun s =>
        { s with branches := s.branches.filter (fun b => b.name ≠ branch_name) }) }

/-- `StackService::delete_stack`: retain stacks whose id differs. -/
def delete_stack (m : StackMetadata) (stack_id : Nat) : StackMetadata :=
  { m with stacks' := m.stacks'.filter (fun s => s.id ≠ stack_id) }

/-- Invariant I1 of the data model: in every stack of the document, each
branch's `parent` is the stack's `root` or the name of another branch of the
same stack. -/
def I1 (m : StackMetadata) : Prop :=
  ∀ s ∈ m.stacks', ∀ b ∈ s.branches,
    b.parent = s.root ∨ ∃ b' ∈ s.branches, b'.name = b.parent

instance (m : StackMetadata) : Decidable (I1 m) := by
  unfold I1; infer_instance

/-! ## The git backend as seen by `StackService::restack`

`Git2Backend` wraps a real repository; `restack` only reaches it through the
operations below.  The repository state is an abstract type `σ` threaded
through the mutating operations (`rebase`, `force_push`, `abort_rebase`);
`needs_rebase` and `get_head_sha` are reads of the current state. -/

structure GitBackend (σ : Type) where
  needs_rebase : σ → String → String → Except GitError Bool
  rebase : σ → String → String → Except GitError Unit × σ
  force_push : σ → String → String → Except GitError Unit × σ
  get_head_sha : σ → String → Except GitError String
  abort_rebase : σ → σ

/-- `StackService::get_conflict_files`: the source returns `Vec::new()`
unconditionally ("In a real implementation, this would check the git index
for conflicts"). -/
def get_conflict_files : List String := []

/-- `RestackStatus`. -/
inductive RestackStatus where
  | success
  | conflicts
  | failed
deriving Repr, DecidableEq

/-- `RestackConflict`. -/
structure RestackConflict where
  branch : String
  files : List String
deriving Repr, DecidableEq

/-- `RestackResult`. -/
structure RestackResult where
  status : RestackStatus
  restacked : List String
  conflicts : List RestackConflict
  error : Option String
deriving Repr, DecidableEq

/-- The state threaded through the `for branch in branches` loop of
`StackService::restack`: the git repository state, the metadata document,
and the `RestackResult` fields accumulated so far. -/
structure RestackState (σ : Type) where
  git : σ
  md : StackMetadata
  status : RestackStatus
  restacked : List String
  conflicts : List RestackConflict
  error : Option String

/-- Set the status (and optionally more) of the branch named `name` in the
first stack with id `stack_id`, as `restack` does after each rebase. -/
def updateBranchInStack (m : StackMetadata) (stack_id : Nat) (name : String)
    (f : StackBranch → StackBranch) : StackMetadata :=
  { m with stacks' :=
      updateStackById m.stacks' stack_id (fun s =>
        { s with branches := updateBranchNamed s.branches name f }) }

/-- One iteration of the `restack` loop for branch `b`.  Returns the new
loop state and `true` when the loop `break`s.

Mirrors `StackService::restack` (`github/stack_service.rs`):
`needs_rebase(..).unwrap_or(true)`; skip pushes the name onto `restacked`
without touching metadata; on rebase success the branch is force-pushed
(failure only logged), pushed onto `restacked`, its status set to
`UpToDate` and its `head_sha` refreshed when `get_head_sha` succeeds; on a
rebase error whose display contains `"conflict"` the conflict entry (with
`get_conflict_files`, the empty stub) is recorded, the status becomes
`Conflicts`, the rebase is aborted, the branch is marked `Conflicted` and
the loop stops; on any other error the status becomes `Failed` with the
error string and the loop stops. -/
def restackStep {σ : Type} (B : GitBackend σ) (stack_id : Nat)
    (st : RestackState σ) (b : StackBranch) : RestackState σ × Bool :=
  let needs_restack :=
    match B.needs_rebase st.git b.name b.parent with
    | .ok v => v
    | .error _ => true
  if !needs_restack then
    ({ st with restacked := st.restacked ++ [b.name] }, false)
  else
    match B.rebase st.git b.name b.parent with
    | (.ok _, g1) =>
      let g2 := (B.force_push g1 b.name "origin").2
      let sha? :=
        match B.get_head_sha g2 b.name with
        | .ok sha => some sha
        | .error _ => none
      ({ st with
          git := g2
          restacked := st.restacked ++ [b.name]
          md := updateBranchInStack st.md stack_id b.name (fun br =>
            { br with
                status := .upToDate
                head_sha := match sha? with
                  | some sha => some sha
                  | none => br.head_sha }) }, false)
    | (.error e, g1) =>
      if containsSubstr (appErrorString e) "conflict" then
        ({ st with
            git := B.abort_rebase g1
            status := .conflicts
            conflicts := st.conflicts ++ [⟨b.name, get_conflict_files⟩]
            md := updateBranchInStack st.md stack_id b.name (fun br =>
              { br with status := .conflicted }) }, true)
      else
        ({ st with
            git := g1
            status := .failed
            error := some (appErrorString e) }, true)

/-- The `restack` walk over the branches in topological order; the second
component records whether the loop stopped early (`break`). -/
def restackGo {σ : Type} (B : GitBackend σ) (stack_id : Nat) :
    List StackBranch → RestackState σ → RestackState σ × Bool
  | [], st => (st, false)
  | b :: rest, st =>
    match restackStep B stack_id st b with
    | (st1, true) => (st1, true)
    | (st1, false) => restackGo B stack_id rest st1

/-- `StackService::restack`: look the stack up by id (error `Branch("Stack
not found")` otherwise), walk its topological order, then set `last_sync`
and persist.  Returns the `RestackResult`, the persisted document and the
final git state. -/
def restack {σ : Type} (B : GitBackend σ) (g0 : σ) (m : StackMetadata)
    (stack_id : Nat) (now : Nat) :
    Except GitError (RestackResult × StackMetadata × σ) :=
  match m.find_stack stack_id with
  | none => .error (.branch "Stack not found")
  | some stack =>
    let st0 : RestackState σ := ⟨g0, m, .success, [], [], none⟩
    let stF := (restackGo B stack_id stack.topological_order st0).1
    let md' := { stF.md with last_sync := some now }
    .ok (⟨stF.status, stF.restacked, stF.conflicts, stF.error⟩, md', stF.git)

/-! ## Reconciliation (`StackService::reconcile`)

`reconcile` only reads the repository, so the git side is a record of pure
query functions (a fixed git state).  `Git2Backend::branch_exists` is
infallible (`Ok(find_branch(..).is_ok())`), hence `Bool`. -/

structure GitView where
  branch_exists : String → Bool
  is_ancestor : String → String → Except GitError Bool
  needs_rebase : String → String → Except GitError Bool
  get_head_sha : String → Except GitError String

/-- `Warning` from `domain/stack/mod.rs`. -/
inductive Warning where
  | parentNotAncestor
  | externallyModified
  | parentDeleted
deriving Repr, DecidableEq

/-- `ReconcileWarning`. -/
structure ReconcileWarning where
  branch : String
  warning : Warning
deriving Repr, DecidableEq

/-- `ReconcileReport`. -/
structure ReconcileReport where
  orphaned : List String
  warnings : List ReconcileWarning
deriving Repr, DecidableEq

/-- One collected update of the reconcile pass:
`(branch_name, status, new_sha, warning)`. -/
def ReconcileUpdate : Type := String × BranchStatus × Option String × Option Warning

/-- The per-branch body of the collect phase of `reconcile`.

Mirrors the `for branch in &stack.branches` body: when the branch exists,
`status` starts `Unknown` and is refined by `is_ancestor(parent, branch)`
(`Ok(true)` → `needs_rebase(..).unwrap_or(false)` picks `NeedsRebase` or
`UpToDate`; `Ok(false)` → `ParentNotAncestor` + `NeedsRebase`; `Err` →
`ParentDeleted` when the parent is absent), and a fresh head sha replaces a
differing recorded one, overwriting the warning with `ExternallyModified`
when a sha had been recorded; when the branch does not exist the update is
`Orphaned` and the name is collected as an orphan (second component). -/
def reconcileEntry (g : GitView) (b : StackBranch) : ReconcileUpdate × Bool :=
  if g.branch_exists b.name then
    let anc := g.is_ancestor b.parent b.name
    let status :=
      match anc with
      | .ok true =>
        match g.needs_rebase b.name b.parent with
        | .ok true => BranchStatus.needsRebase
        | .ok false => BranchStatus.upToDate
        | .error _ => BranchStatus.upToDate
      | .ok false => BranchStatus.needsRebase
      | .error _ => BranchStatus.unknown
    let warning0 : Option Warning :=
      match anc with
      | .ok true => none
      | .ok false => some .parentNotAncestor
      | .error _ =>
        if !g.branch_exists b.parent then some .parentDeleted else none
    let (new_sha, warning) :=
      match g.get_head_sha b.name with
      | .ok sha =>
        if b.head_sha ≠ some sha then
          (some sha, if b.head_sha.isSome then some .externallyModified else warning0)
        else (none, warning0)
      | .error _ => (none, warning0)
    ((b.name, status, new_sha, warning), false)
  else
    ((b.name, .orphaned, none, none), true)

/-- Collect phase of `reconcile`: updates in document order, and the list
of orphaned branch names. -/
def reconcileCollect (g : GitView) (m : StackMetadata) :
    List ReconcileUpdate × List String :=
  let all := m.stacks'.flatMap (fun s => s.branches.map (reconcileEntry g))
  (all.map (fun e => e.1), (all.filter (fun e => e.2)).map (fun e => e.1.1))

/-- What one collected update writes into its branch: the status always,
the `head_sha` only when a new sha was collected. -/
def applyVals (u : ReconcileUpdate) (br : StackBranch) : StackBranch :=
  { br with
      status := u.2.1
      head_sha := match u.2.2.1 with
        | some sha => some sha
        | none => br.head_sha }

/-- The `for stack in &mut metadata.stacks` loop of the apply phase: the
first stack containing the branch name gets the update (through
`find_branch_mut`, i.e. its first branch with that name), then `break`. -/
def applyUpdateStacks : List Stack → ReconcileUpdate → List Stack
  | [], _ => []
  | s :: rest, u =>
    if s.branches.any (fun b => b.name = u.1) then
      { s with branches := updateBranchNamed s.branches u.1 (applyVals u) } :: rest
    else s :: applyUpdateStacks rest u

/-- Apply phase for one update: find the first stack containing the branch
name, set its status, and set its `head_sha` when a new sha was
collected. -/
def applyUpdate (m : StackMetadata) (u : ReconcileUpdate) : StackMetadata :=
  { m with stacks' := applyUpdateStacks m.stacks' u }

/-- `StackService::reconcile`: collect updates under the git handle, then
apply them under the metadata write lock, recording one warning per update
that carries one, and finally append the orphans to the report. -/
def reconcile (g : GitView) (m : StackMetadata) :
    ReconcileReport × StackMetadata :=
  let (updates, orphans) := reconcileCollect g m
  let report : ReconcileReport :=
    ⟨orphans, updates.filterMap (fun u => u.2.2.2.map (fun w => ⟨u.1, w⟩))⟩
  let m' := updates.foldl applyUpdate m
  (report, m')

/-! ## `Git2Backend::needs_rebase` (`git/mod.rs`)

For this contract the repository is modelled concretely enough to expose
merge bases: `branches` maps a local branch name to its head commit oid,
and `merge_base` is the underlying `git2` merge-base query (`none` when the
two commits share no ancestor, in which case `git2` errors). -/

structure GitRepo where
  branches : String → Option String
  merge_base : String → String → Option String

/-- `Git2Backend::needs_rebase(branch, parent)`: resolve the parent ref and
the branch head, find their merge base, and report `merge_base ≠ parent`. -/
def GitRepo.needs_rebase (r : GitRepo) (branch parent : String) :
    Except GitError Bool :=
  match r.branches parent with
  | none => .error (.branch "Parent branch not found")
  | some parent_oid =>
    match r.branches branch with
    | none => .error (.branch "Branch not found")
    | some branch_oid =>
      match r.merge_base branch_oid parent_oid with
      | none => .error (.branch "Failed to find merge base")
      | some mb => .ok (mb ≠ parent_oid)

/-! ## Sync change detection (`SyncService::detect_changes`)

Only the fields read by `detect_changes` are carried: `number`, `title`,
`updated_at`, `review_decision`, `state`. -/

/-- `PrState`. -/
inductive PrState where
  | open_
  | closed
  | merged
deriving Repr, DecidableEq

/-- `ReviewDecision`. -/
inductive ReviewDecision where
  | approved
  | changesRequested
  | reviewRequired
deriving Repr, DecidableEq

/-- The `{:?}` (Debug) rendering of a `ReviewDecision`, used for
`PrReviewChanged::new_status`. -/
def ReviewDecision.debug : ReviewDecision → String
  | .approved => "Approved"
  | .changesRequested => "ChangesRequested"
  | .reviewRequired => "ReviewRequired"

/-- The slice of `PullRequest` consumed by `detect_changes`. -/
structure PullRequest where
  number : Int
  title : String
  state : PrState
  review_decision : Option ReviewDecision
  updated_at : Nat
deriving Repr, DecidableEq

/-- `SyncChange` (the variants `detect_changes` emits). -/
inductive SyncChange where
  | prCreated (number : Int) (title : String)
  | prUpdated (number : Int) (title : String)
  | prClosed (number : Int) (merged : Bool)
  | prReviewChanged (number : Int) (new_status : String)
deriving Repr, DecidableEq

/-- Lookup in the `HashMap` built from a PR list keyed by number: Rust's
`collect` keeps the last entry for a duplicated key. -/
def prLookup (prs : List PullRequest) (number : Int) : Option PullRequest :=
  prs.reverse.find? (fun pr => pr.number = number)

/-- Body of the first `detect_changes` loop (`for new_pr in new_prs`):
push `PrUpdated` / `PrReviewChanged` for a number present in the old map,
`PrCreated` for a fresh one. -/
def detectNewStep (old_prs : List PullRequest) (acc : List SyncChange)
    (npr : PullRequest) : List SyncChange :=
  match prLookup old_prs npr.number with
  | some opr =>
    let acc :=
      if opr.updated_at ≠ npr.updated_at then
        acc ++ [.prUpdated npr.number npr.title]
      else acc
    if opr.review_decision ≠ npr.review_decision then
      acc ++ [.prReviewChanged npr.number
        (((npr.review_decision.map ReviewDecision.debug)).getD "pending")]
    else acc
  | none => acc ++ [.prCreated npr.number npr.title]

/-- Body of the second `detect_changes` loop (`for old_pr in old_prs`):
push `PrClosed` when the number is absent from the new map. -/
def detectClosedStep (new_prs : List PullRequest) (acc : List SyncChange)
    (opr : PullRequest) : List SyncChange :=
  if ¬ new_prs.any (fun pr => pr.number = opr.number) then
    acc ++ [.prClosed opr.number (opr.state = .merged)]
  else acc

/-- `SyncService::detect_changes`: one pass over the new list pushing
`PrUpdated` / `PrReviewChanged` for known numbers and `PrCreated` for
unknown ones, then one pass over the old list pushing `PrClosed` for
numbers that disappeared. -/
def detect_changes (old_prs new_prs : List PullRequest) : List SyncChange :=
  let changes : List SyncChange := []
  let changes := new_prs.foldl (detectNewStep old_prs) changes
  old_prs.foldl (detectClosedStep new_prs) changes

/-! ## Rate-limit state (`github/mod.rs`)

`u32`/`u64` arithmetic: `consecutive_hits.min(5)` bounds the exponent by 5
and `60 * 2^5 = 1920` is far below `u64::MAX`, so the `saturating_pow` /
`saturating_mul` in the source never saturate and `Nat` models them
exactly. -/

/-- `RateLimitInfo` (`domain/sync/mod.rs`); `resets_at` is an abstract
instant. -/
structure RateLimitInfo where
  remaining : Nat
  limit : Nat
  resets_at : Int
deriving Repr, DecidableEq

/-- `RateLimitInfo::is_limited`: `remaining == 0` (the reset instant is not
consulted). -/
def RateLimitInfo.is_limited (i : RateLimitInfo) : Bool :=
  i.remaining = 0

/-- `RateLimitState`. -/
structure RateLimitState where
  info : Option RateLimitInfo
  consecutive_hits : Nat
deriving Repr, DecidableEq

/-- `RateLimitState::default()`. -/
def RateLimitState.default : RateLimitState := ⟨none, 0⟩

/-- `RateLimitState::update_from_headers`: refresh the info and reset
`consecutive_hits` when the response reports remaining quota. -/
def RateLimitState.update_from_headers (s : RateLimitState)
    (remaining limit : Nat) (resets_at : Int) : RateLimitState :=
  { info := some ⟨remaining, limit, resets_at⟩
    consecutive_hits := if remaining > 0 then 0 else s.consecutive_hits }

/-- `RateLimitState::mark_rate_limited` (a 403/429 was received):
increment `consecutive_hits` and zero the remaining quota. -/
def RateLimitState.mark_rate_limited (s : RateLimitState) (resets_at : Int) :
    RateLimitState :=
  { info := some ⟨0, ((s.info.map RateLimitInfo.limit).getD 5000), resets_at⟩
    consecutive_hits := s.consecutive_hits + 1 }

/-- `RateLimitState::backoff_duration` in seconds:
`min(60 * 2^min(consecutive_hits, 5), 900)`. -/
def RateLimitState.backoff_secs (s : RateLimitState) : Nat :=
  min (60 * 2 ^ (min s.consecutive_hits 5)) 900

/-! ## Sync cycle gating (`SyncService::start` / `perform_sync`)

The background loop multiplexes a timer tick and the command channel.  The
model captures, for each trigger, whether a sync cycle is performed, where
"a cycle is performed" means the body of `perform_sync` runs past its
repository-context guard (its only early return). -/

/-- `SyncConfig` (`config/mod.rs`). -/
structure SyncConfig where
  interval_secs : Nat
  enabled : Bool
  sync_on_startup : Bool
deriving Repr, DecidableEq

/-- The shared state consulted by the sync loop when deciding whether to
run a cycle. -/
structure SyncGate where
  running : Bool
  config : SyncConfig
  repo_context : Option (String × String)
  rate_limit : Option RateLimitInfo
deriving Repr, DecidableEq

/-- The events that can fire one turn of the `tokio::select!` loop. -/
inductive SyncTrigger where
  | tick
  | cmdStart
  | cmdStop
  | cmdSyncNow
  | cmdUpdateConfig (c : SyncConfig)
deriving Repr, DecidableEq

/-- `SyncService::should_sync`: enabled, not rate limited
(`RateLimitInfo::is_limited`), and a repository context is set.  Defined in
the source but never called by the loop. -/
def should_sync (st : SyncGate) : Bool :=
  st.config.enabled &&
    !((st.rate_limit.map RateLimitInfo.is_limited).getD false) &&
    st.repo_context.isSome

/-- Whether `perform_sync` runs a cycle: its only guard is the repository
context (`let Some((owner, repo)) = context else return`). -/
def performSyncRuns (st : SyncGate) : Bool :=
  st.repo_context.isSome

/-- Whether one turn of the sync loop performs a cycle.  A tick runs
`perform_sync` when `running` and `config.enabled`; `SyncNow` runs it
unconditionally; the other commands never do. -/
def cyclePerformed (st : SyncGate) (t : SyncTrigger) : Bool :=
  match t with
  | .tick => st.running && st.config.enabled && performSyncRuns st
  | .cmdSyncNow => performSyncRuns st
  | _ => false

/-! ## Metadata persistence (`StackService::save_metadata`)

The save path is modelled as the trace of file-system operations it
performs.  `doc` stands for the pretty-printed JSON rendering of the
document. -/

/-- A file-system operation. -/
inductive FsOp where
  | writeFile (path : String) (contents : String)
  | fsyncFile (path : String)
  | rename (src : String) (dst : String)
deriving Repr, DecidableEq

/-- `FsOp.rename` recogniser. -/
def FsOp.isRename : FsOp → Bool
  | .rename _ _ => true
  | _ => false

/-- `FsOp.fsyncFile` recogniser. -/
def FsOp.isFsync : FsOp → Bool
  | .fsyncFile _ => true
  | _ => false

/-- The metadata file path: `<repo>/.git/stack-metadata.json`. -/
def metadataPath (repo_path : String) : String :=
  repo_path ++ "/.git/stack-metadata.json"

/-- `StackService::save_metadata`: one `std::fs::write` of the serialized
document straight to the target path. -/
def save_metadata_ops (repo_path : String) (doc : String) : List FsOp :=
  [.writeFile (metadataPath repo_path) doc]

/-- Final file-system contents after running a trace of operations:
`fs path` is the contents at `path`, if the file exists. -/
def runOps (ops : List FsOp) (fs : String → Option String) :
    String → Option String :=
  ops.foldl (fun fs op =>
    match op with
    | .writeFile p c => fun q => if q = p then some c else fs q
    | .fsyncFile _ => fs
    | .rename src dst => fun q =>
      if q = dst then fs src else if q = src then none else fs q) fs

/-! ## Claim C7: rate-limit backoff -/

/-- `consecutive_hits` after `k` successive `mark_rate_limited` calls
(one per 403/429 received), with per-hit reset stamps `rs`. -/
def markN (rs : Nat → Int) : Nat → RateLimitState → RateLimitState
  | 0, s => s
  | k + 1, s => (markN rs k s).mark_rate_limited (rs k)

/-- C7: after `k ≥ 1` consecutive rate-limit hits from a fresh state the
backoff is `min(900, 60 * 2^min(k, 5))` seconds — in particular 120s after
the first 403 and 240s after the second — the backoff is monotone
non-decreasing in the hit count, and a header refresh reporting remaining
quota resets `consecutive_hits` to 0. -/
theorem c7_rate_limit_backoff :
    (∀ (rs : Nat → Int) (k : Nat), 1 ≤ k →
      (markN rs k RateLimitState.default).backoff_secs =
        min 900 (60 * 2 ^ (min k 5)))
    ∧ (∀ rs : Nat → Int,
        (markN rs 1 RateLimitState.default).backoff_secs = 120)
    ∧ (∀ rs : Nat → Int,
        (markN rs 2 RateLimitState.default).backoff_secs = 240)
    ∧ (∀ s1 s2 : RateLimitState, s1.consecutive_hits ≤ s2.consecutive_hits →
        s1.backoff_secs ≤ s2.backoff_secs)
    ∧ (∀ (s : RateLimitState) (rem lim : Nat) (rst : Int), 0 < rem →
        (s.update_from_headers rem lim rst).consecutive_hits = 0) := by
  have hhits : ∀ (rs : Nat → Int) (k : Nat),
      (markN rs k RateLimitState.default).consecutive_hits = k := by
    intro rs k
    induction k with
    | zero => rfl
    | succ n ih =>
      simp [markN, RateLimitState.mark_rate_limited, ih]
  refine ⟨?_, ?_, ?_, ?_, ?_⟩
  · intro rs k _
    simp [RateLimitState.backoff_secs, hhits, Nat.min_comm]
  · intro rs
    simp [RateLimitState.backoff_secs, hhits]
  · intro rs
    simp [RateLimitState.backoff_secs, hhits]
  · intro s1 s2 h
    unfold RateLimitState.backoff_secs
    exact min_le_min
      (Nat.mul_le_mul_left 60 (Nat.pow_le_pow_right (by norm_num)
        (min_le_min h (le_refl 5)))) (le_refl 900)
  · intro s rem lim rst h
    simp [RateLimitState.update_from_headers, h]

/-- C7 witness: the theorem instantiated at concrete inputs (two hits give
240s, the monotone part at hit counts 1 ≤ 3, and a refresh with remaining 7). -/
theorem c7_rate_limit_backoff_witness :
    (markN (fun _ => 5) 2 RateLimitState.default).backoff_secs =
        min 900 (60 * 2 ^ (min 2 5))
    ∧ (markN (fun _ => 5) 1 RateLimitState.default).backoff_secs ≤
        (markN (fun _ => 5) 3 RateLimitState.default).backoff_secs
    ∧ (RateLimitState.default.update_from_headers 7 5000 3).consecutive_hits = 0 :=
  ⟨c7_rate_limit_backoff.1 (fun _ => 5) 2 (by decide),
    c7_rate_limit_backoff.2.2.2.1 _ _ (by decide),
    c7_rate_limit_backoff.2.2.2.2 RateLimitState.default 7 5000 3 (by decide)⟩

/-! ## Claim C8: sync cycle gating -/

/-- A gate state that is rate limited (`remaining == 0`, reset in the
future relative to instant 0) with sync enabled and a repository set. -/
def rateLimitedGate : SyncGate :=
  ⟨true, ⟨60, true, true⟩, some ("octo", "repo"), some ⟨0, 5000, 100⟩⟩

/-- A gate state with sync disabled and a repository set. -/
def disabledGate : SyncGate :=
  ⟨true, ⟨60, false, true⟩, some ("octo", "repo"), some ⟨40, 5000, 100⟩⟩

/-- C8 counterexample: with `enabled == true`, a repository set, and a
rate-limit snapshot saying `remaining == 0` with `resets_at` (100) after
now (0), a timer tick still performs a cycle — the loop checks only
`running` and `config.enabled` and never consults the snapshot; moreover a
`SyncNow` command performs a cycle even when `enabled == false`.  Both
contradict the claim. -/
theorem c8_counterexample :
    (rateLimitedGate.rate_limit = some ⟨0, 5000, 100⟩
      ∧ (0 : Int) < 100
      ∧ cyclePerformed rateLimitedGate .tick = true)
    ∧ (disabledGate.config.enabled = false
      ∧ cyclePerformed disabledGate .cmdSyncNow = true) := by
  decide

/-- C8 amended: a cycle is never performed without a repository context
(the only guard inside `perform_sync`), and a timer tick performs no cycle
when `enabled == false`; but the rate-limit snapshot never prevents a
cycle, and `SyncNow` proceeds regardless of `enabled` (`should_sync`
implements the claimed condition but is never called by the loop). -/
theorem c8_cycle_gating_amended :
    (∀ (st : SyncGate) (t : SyncTrigger),
      cyclePerformed st t = true → st.repo_context.isSome = true)
    ∧ (∀ st : SyncGate, st.config.enabled = false →
        cyclePerformed st .tick = false) := by
  constructor
  · intro st t h
    cases t <;>
      simp_all [cyclePerformed, performSyncRuns]
  · intro st h
    simp [cyclePerformed, h]

/-- C8 witness: the amended theorem applied to the concrete gates. -/
theorem c8_cycle_gating_witness :
    (rateLimitedGate.repo_context.isSome = true)
    ∧ cyclePerformed disabledGate .tick = false :=
  ⟨c8_cycle_gating_amended.1 rateLimitedGate .tick (by decide),
    c8_cycle_gating_amended.2 disabledGate (by decide)⟩

/-! ## Claim C9: `needs_rebase` contract -/

/-- C9: for existing local branches `b` and `p` whose heads have a merge
base, `needs_rebase(b, p)` returns true exactly when that merge base
differs from the head of `p`. -/
theorem c9_needs_rebase_iff (r : GitRepo) (b p ob op mb : String)
    (hb : r.branches b = some ob) (hp : r.branches p = some op)
    (hmb : r.merge_base ob op = some mb) :
    r.needs_rebase b p = .ok true ↔ mb ≠ op := by
  unfold GitRepo.needs_rebase
  rw [hp, hb]
  simp [hmb]

/-- C9 witness: a two-branch repository where the merge base of `b` and
`p` is not `p`'s head, so `needs_rebase` returns true. -/
theorem c9_needs_rebase_witness :
    GitRepo.needs_rebase
      ⟨fun n => if n = "b" then some "b1" else if n = "p" then some "p1" else none,
        fun _ _ => some "base0"⟩ "b" "p" = .ok true :=
  (c9_needs_rebase_iff _ "b" "p" "b1" "p1" "base0" rfl rfl rfl).mpr (by decide)

/-! ## Claim C10: metadata persistence -/

/-- C10 counterexample: at a concrete repository path and document,
`save_metadata` performs exactly one operation — a direct `fs::write` of
the document to `stack-metadata.json` — and its trace contains no rename of
a temporary sibling and no fsync, contradicting the claimed
write-temp/fsync/rename protocol. -/
theorem c10_counterexample :
    save_metadata_ops "/r" "doc" = [.writeFile "/r/.git/stack-metadata.json" "doc"]
    ∧ (save_metadata_ops "/r" "doc").all
        (fun op => !op.isRename && !op.isFsync) = true := by
  constructor <;> rfl

/-- C10 amended: every save writes the pretty-printed document directly to
the target path with a single `std::fs::write` — no temporary sibling,
fsync or rename is involved — and after the trace runs the target holds
the document.  Because the write is in place, the target is not protected
against holding a partially written document mid-crash. -/
theorem c10_save_direct_write (repo_path doc : String)
    (fs : String → Option String) :
    save_metadata_ops repo_path doc = [.writeFile (metadataPath repo_path) doc]
    ∧ (save_metadata_ops repo_path doc).all
        (fun op => !op.isRename && !op.isFsync) = true
    ∧ runOps (save_metadata_ops repo_path doc) fs (metadataPath repo_path) =
        some doc := by
  refine ⟨rfl, rfl, ?_⟩
  simp [runOps, save_metadata_ops]

/-! ## Claim C5: change-diff emission order -/

/-- The changes the new-list pass of `detect_changes` emits for one new PR:
for a number already cached, `PrUpdated` (on `updated_at` drift) then
`PrReviewChanged` (on review-decision drift); for an unknown number,
`PrCreated`. -/
def perNewChange (old_prs : List PullRequest) (npr : PullRequest) :
    List SyncChange :=
  match prLookup old_prs npr.number with
  | some opr =>
    (if opr.updated_at ≠ npr.updated_at then
      [.prUpdated npr.number npr.title] else []) ++
    (if opr.review_decision ≠ npr.review_decision then
      [.prReviewChanged npr.number
        ((npr.review_decision.map ReviewDecision.debug).getD "pending")]
    else [])
  | none => [.prCreated npr.number npr.title]

/-- The closure the old-list pass emits for one old PR, when its number is
gone from the new list. -/
def closedChange (new_prs : List PullRequest) (opr : PullRequest) :
    Option SyncChange :=
  if ¬ new_prs.any (fun pr => pr.number = opr.number) then
    some (.prClosed opr.number (opr.state = .merged))
  else none

/-- Phase of a change in the order claimed by the spec: creations first,
then updates/review changes, then closures. -/
def changePhase : SyncChange → Nat
  | .prCreated _ _ => 0
  | .prUpdated _ _ => 1
  | .prReviewChanged _ _ => 1
  | .prClosed _ _ => 2

/-- Old cache for the C5 counterexample: PR #1 last updated at instant 0. -/
def c5old : List PullRequest := [⟨1, "one", .open_, none, 0⟩]

/-- New list for the C5 counterexample: PR #1 updated (instant 1) and a
fresh PR #2. -/
def c5new : List PullRequest :=
  [⟨1, "one", .open_, none, 1⟩, ⟨2, "two", .open_, none, 5⟩]

/-- C5 counterexample: with PR #1 updated and PR #2 newly created, the diff
emits `PrUpdated 1` *before* `PrCreated 2` — the emitted phases are not
ordered creations-first as the claim requires. -/
theorem c5_counterexample :
    detect_changes c5old c5new = [.prUpdated 1 "one", .prCreated 2 "two"]
    ∧ ¬ (detect_changes c5old c5new).Pairwise
        (fun a b => changePhase a ≤ changePhase b) := by
  constructor
  · rfl
  · decide

/-- C5 amended: the diff emits, in new-list order, the per-PR changes of
the new pass — `PrUpdated` then `PrReviewChanged` for a cached number,
`PrCreated` for a fresh one, interleaved rather than creations-first — and
afterwards all `PrClosed` in old-list order. -/
theorem c5_change_order_amended (old_prs new_prs : List PullRequest) :
    detect_changes old_prs new_prs =
      new_prs.flatMap (perNewChange old_prs) ++
        old_prs.filterMap (closedChange new_prs) := by
  have hstep : ∀ (acc : List SyncChange) (npr : PullRequest),
      detectNewStep old_prs acc npr = acc ++ perNewChange old_prs npr := by
    intro acc npr
    unfold detectNewStep perNewChange
    cases prLookup old_prs npr.number with
    | none => rfl
    | some opr =>
      by_cases h1 : opr.updated_at = npr.updated_at <;>
        by_cases h2 : opr.review_decision = npr.review_decision <;>
          simp [h1, h2]
  have hfold1 : ∀ (l : List PullRequest) (acc : List SyncChange),
      l.foldl (detectNewStep old_prs) acc =
        acc ++ l.flatMap (perNewChange old_prs) := by
    intro l
    induction l with
    | nil => intro acc; simp
    | cons x xs ih =>
      intro acc
      simp only [List.foldl_cons, List.flatMap_cons, hstep, ih,
        List.append_assoc]
  have hfold2 : ∀ (l : List PullRequest) (acc : List SyncChange),
      l.foldl (detectClosedStep new_prs) acc =
        acc ++ l.filterMap (closedChange new_prs) := by
    intro l
    induction l with
    | nil => intro acc; simp
    | cons x xs ih =>
      intro acc
      by_cases h : new_prs.any (fun pr => pr.number = x.number) <;>
        simp [detectClosedStep, closedChange, h, ih, List.append_assoc]
  unfold detect_changes
  rw [hfold2, hfold1]
  simp

/-! ## Claim C3: invariant I1 under the engine's mutations -/

/-- Membership in `updateStackById`: every stack of the result is either an
untouched original or the image under `f` of the first stack matching the
id. -/
theorem mem_updateStackById {ss : List Stack} {id : Nat} {f : Stack → Stack}
    {s' : Stack} (h : s' ∈ updateStackById ss id f) :
    s' ∈ ss ∨ ∃ s ∈ ss, s.id = id ∧ s' = f s := by
  induction ss with
  | nil => simp [updateStackById] at h
  | cons s rest ih =>
    unfold updateStackById at h
    by_cases hid : s.id = id
    · simp only [hid, if_true, List.mem_cons] at h
      rcases h with h | h
      · exact .inr ⟨s, by simp, hid, h⟩
      · exact .inl (List.mem_cons_of_mem _ h)
    · simp only [hid, if_false, List.mem_cons] at h
      rcases h with h | h
      · exact .inl (by simp [h])
      · rcases ih h with h | ⟨s0, hs0, hid0, heq⟩
        · exact .inl (List.mem_cons_of_mem _ h)
        · exact .inr ⟨s0, List.mem_cons_of_mem _ hs0, hid0, heq⟩

/-- A two-branch stack `main ← A ← B` satisfying I1. -/
def c3md : StackMetadata :=
  ⟨1, [⟨0, "main",
    [⟨"A", "main", none, .upToDate, 0, none⟩,
      ⟨"B", "A", none, .upToDate, 0, none⟩], 0, 0⟩], none⟩

/-- C3 counterexample: `c3md` satisfies I1, yet `remove_branch "A"` leaves
branch `B` with the dangling parent `A` (neither `root` nor an existing
branch), and `create_stack_branch` with an arbitrary existing git branch
`other` as parent also breaks I1 — neither operation checks the parent
pointer structure. -/
theorem c3_counterexample :
    I1 c3md
    ∧ ¬ I1 (remove_branch c3md "A")
    ∧ ¬ I1 (create_stack_branch c3md 0 "C" "other" none 4) := by
  refine ⟨by decide, by decide, by decide⟩

/-- C3 amended: `delete_stack` preserves I1 unconditionally, and
`create_stack_branch` preserves it provided the requested parent is the
target stack's root or the name of one of its branches; `remove_branch`
does not preserve I1 when the removed branch has children. -/
theorem c3_i1_preservation_amended :
    (∀ (m : StackMetadata) (id : Nat), I1 m → I1 (delete_stack m id))
    ∧ (∀ (m : StackMetadata) (sid : Nat) (bn pn : String)
        (sha : Option String) (now : Nat), I1 m →
        (∀ s ∈ m.stacks', s.id = sid →
          pn = s.root ∨ ∃ b ∈ s.branches, b.name = pn) →
        I1 (create_stack_branch m sid bn pn sha now)) := by
  constructor
  · intro m id h s hs b hb
    exact h s (List.mem_of_mem_filter hs) b hb
  · intro m sid bn pn sha now h hpn s' hs' b hb
    rcases mem_updateStackById hs' with hmem | ⟨s, hs, hid, heq⟩
    · exact h s' hmem b hb
    · subst heq
      simp only [Stack.add_branch, List.mem_append, List.mem_singleton] at hb
      rcases hb with hb | hb
      · rcases h s hs b hb with hroot | ⟨b', hb', hname⟩
        · exact .inl hroot
        · exact .inr ⟨b', by simp [Stack.add_branch, List.mem_append, hb'], hname⟩
      · subst hb
        rcases hpn s hs hid with hroot | ⟨b', hb', hname⟩
        · left
          cases sha <;> simp [StackBranch.new, StackBranch.with_sha, Stack.add_branch, hroot]
        · right
          refine ⟨b', by simp [Stack.add_branch, List.mem_append, hb'], ?_⟩
          cases sha <;> simp [StackBranch.new, StackBranch.with_sha, hname]

/-- C3 witness: the amended theorem applied to the concrete document
`c3md`: deleting stack 0 and adding branch `C` under parent `A` both
preserve I1. -/
theorem c3_i1_preservation_witness :
    I1 (delete_stack c3md 0)
    ∧ I1 (create_stack_branch c3md 0 "C" "A" none 4) :=
  ⟨c3_i1_preservation_amended.1 c3md 0 (by decide),
    c3_i1_preservation_amended.2 c3md 0 "C" "A" none 4 (by decide) (by decide)⟩

/-! ## Concrete restack scenarios (spec §8, scenarios 1 and 2) -/

/-- Branch `A` on `main`. -/
def brA : StackBranch := ⟨"A", "main", none, .upToDate, 0, some "shaA"⟩

/-- Branch `B` on `A`. -/
def brB : StackBranch := ⟨"B", "A", none, .upToDate, 0, some "shaB"⟩

/-- Branch `C` on `B`. -/
def brC : StackBranch := ⟨"C", "B", none, .upToDate, 0, some "shaC"⟩

/-- The stack `main ← A ← B ← C` of the spec's scenarios. -/
def stABC : Stack := ⟨0, "main", [brA, brB, brC], 0, 0⟩

/-- A document holding only `stABC`. -/
def mdABC : StackMetadata := ⟨1, [stABC], none⟩

/-- A git backend (state is irrelevant, hence `Unit`) in which `A` is up to
date, `B` and `C` need a rebase, and rebasing `B` hits a conflict —
scenario 2 of the spec. -/
def conflictBackend : GitBackend Unit where
  needs_rebase := fun _ n _ => .ok (n ≠ "A")
  rebase := fun g n _ => (if n = "B" then .error (.conflict []) else .ok (), g)
  force_push := fun g _ _ => (.ok (), g)
  get_head_sha := fun _ n => .ok ("new-" ++ n)
  abort_rebase := fun g => g

/-- A git backend in which no branch needs a rebase but branch heads have
moved (`get_head_sha` returns a fresh value). -/
def skipBackend : GitBackend Unit where
  needs_rebase := fun _ _ _ => .ok false
  rebase := fun g _ _ => (.ok (), g)
  force_push := fun g _ _ => (.ok (), g)
  get_head_sha := fun _ n => .ok ("new-" ++ n)
  abort_rebase := fun g => g

/-- The status recorded for branch `n` in the first stack with id `sid`
(the branch `restack` reads and writes through `find_branch_mut`). -/
def branchStatusIn (m : StackMetadata) (sid : Nat) (n : String) :
    Option BranchStatus :=
  ((m.find_stack sid).bind (fun s => s.find_branch n)).map (fun b => b.status)

/-- The `head_sha` recorded for branch `n` in the first stack with id
`sid`. -/
def branchShaIn (m : StackMetadata) (sid : Nat) (n : String) :
    Option (Option String) :=
  ((m.find_stack sid).bind (fun s => s.find_branch n)).map (fun b => b.head_sha)

/-! ## Claim C6: conflict file lists -/

/-- The skip arm of the `restack` loop: when `needs_rebase` says no, the
branch name is pushed onto `restacked` and nothing else changes. -/
theorem restackStep_eq_skip {σ : Type} {B : GitBackend σ} {sid : Nat}
    {st : RestackState σ} {b : StackBranch}
    (h : B.needs_rebase st.git b.name b.parent = .ok false) :
    restackStep B sid st b =
      ({ st with restacked := st.restacked ++ [b.name] }, false) := by
  unfold restackStep
  rw [h]
  rfl

/-- The guard of the rebase arms: when `needs_rebase` is not `Ok(false)`
(`unwrap_or(true)`), the branch is rebased. -/
theorem restack_needs_true {σ : Type} {B : GitBackend σ}
    {g : σ} {b : StackBranch}
    (h : B.needs_rebase g b.name b.parent ≠ .ok false) :
    (match B.needs_rebase g b.name b.parent with
      | .ok v => v
      | .error _ => true) = true := by
  rcases hv : B.needs_rebase g b.name b.parent with e | v
  · rfl
  · cases v
    · exact absurd hv h
    · rfl

/-- The success arm of the `restack` loop: rebase succeeded, the branch is
force-pushed, recorded as restacked, marked `UpToDate`, and its sha
refreshed from `get_head_sha` when that succeeds. -/
theorem restackStep_eq_rebased {σ : Type} {B : GitBackend σ} {sid : Nat}
    {st : RestackState σ} {b : StackBranch} {g1 : σ}
    (hn : B.needs_rebase st.git b.name b.parent ≠ .ok false)
    (hr : B.rebase st.git b.name b.parent = (.ok (), g1)) :
    restackStep B sid st b =
      ({ st with
          git := (B.force_push g1 b.name "origin").2
          restacked := st.restacked ++ [b.name]
          md := updateBranchInStack st.md sid b.name (fun br =>
            { br with
                status := .upToDate
                head_sha :=
                  match B.get_head_sha (B.force_push g1 b.name "origin").2 b.name with
                  | .ok sha => some sha
                  | .error _ => br.head_sha }) }, false) := by
  unfold restackStep
  rw [restack_needs_true hn, hr]
  rcases hs : B.get_head_sha (B.force_push g1 b.name "origin").2 b.name with e | sha <;>
    simp [hs]

/-- The conflict arm of the `restack` loop: the rebase error is classified
as a conflict, the entry (with the stub file list) is appended, the rebase
aborted, the branch marked `Conflicted`, and the walk stops. -/
theorem restackStep_eq_conflict {σ : Type} {B : GitBackend σ} {sid : Nat}
    {st : RestackState σ} {b : StackBranch} {e : GitError} {g1 : σ}
    (hn : B.needs_rebase st.git b.name b.parent ≠ .ok false)
    (hr : B.rebase st.git b.name b.parent = (.error e, g1))
    (hc : containsSubstr (appErrorString e) "conflict" = true) :
    restackStep B sid st b =
      ({ st with
          git := B.abort_rebase g1
          status := .conflicts
          conflicts := st.conflicts ++ [⟨b.name, get_conflict_files⟩]
          md := updateBranchInStack st.md sid b.name (fun br =>
            { br with status := .conflicted }) }, true) := by
  unfold restackStep
  rw [restack_needs_true hn, hr]
  simp [hc]

/-- The failure arm of the `restack` loop: the rebase error is not a
conflict, the status becomes `Failed` with the error string, and the walk
stops. -/
theorem restackStep_eq_failed {σ : Type} {B : GitBackend σ} {sid : Nat}
    {st : RestackState σ} {b : StackBranch} {e : GitError} {g1 : σ}
    (hn : B.needs_rebase st.git b.name b.parent ≠ .ok false)
    (hr : B.rebase st.git b.name b.parent = (.error e, g1))
    (hc : containsSubstr (appErrorString e) "conflict" = false) :
    restackStep B sid st b =
      ({ st with
          git := g1
          status := .failed
          error := some (appErrorString e) }, true) := by
  unfold restackStep
  rw [restack_needs_true hn, hr]
  simp [hc]

/-- Each `restack` loop iteration either leaves the conflict list alone or
appends the single entry for the current branch, with
`get_conflict_files` (the empty stub) as its file list. -/
theorem restackStep_conflicts {σ : Type} (B : GitBackend σ) (sid : Nat)
    (st : RestackState σ) (b : StackBranch) :
    ((restackStep B sid st b).1).conflicts = st.conflicts ∨
      ((restackStep B sid st b).1).conflicts =
        st.conflicts ++ [⟨b.name, get_conflict_files⟩] := by
  by_cases hn : B.needs_rebase st.git b.name b.parent = .ok false
  · rw [restackStep_eq_skip hn]
    exact .inl rfl
  · rcases hr : B.rebase st.git b.name b.parent with ⟨r, g1⟩
    rcases r with e | u
    · by_cases hc : containsSubstr (appErrorString e) "conflict" = true
      · rw [restackStep_eq_conflict hn hr hc]
        exact .inr rfl
      · rw [restackStep_eq_failed hn hr (by simpa using hc)]
        exact .inl rfl
    · rw [restackStep_eq_rebased hn hr]
      exact .inl rfl

/-- Conflict entries accumulated by the walk all carry the empty file
list, provided the incoming ones do. -/
theorem restackGo_conflict_files {σ : Type} (B : GitBackend σ) (sid : Nat)
    (l : List StackBranch) (st : RestackState σ)
    (h : ∀ c ∈ st.conflicts, c.files = []) :
    ∀ c ∈ ((restackGo B sid l st).1).conflicts, c.files = [] := by
  induction l generalizing st with
  | nil => exact h
  | cons b rest ih =>
    have hnext : ∀ c ∈ ((restackStep B sid st b).1).conflicts, c.files = [] := by
      rcases restackStep_conflicts B sid st b with hc | hc <;> rw [hc]
      · exact h
      · intro c hmem
        rcases List.mem_append.mp hmem with hmem | hmem
        · exact h c hmem
        · simp only [List.mem_singleton] at hmem
          subst hmem
          rfl
    unfold restackGo
    rcases hstep : restackStep B sid st b with ⟨st1, brk⟩
    rw [hstep] at hnext
    cases brk
    · simpa using ih st1 hnext
    · simpa using hnext

/-- C6 counterexample: in the spec's conflict scenario (stack `A, B, C`,
rebasing `B` conflicts), the recorded `RestackConflict` for `B` carries the
empty file list, not the conflicting files. -/
theorem c6_counterexample :
    (restack conflictBackend () mdABC 0 9).map
        (fun out => out.1.conflicts) = .ok [⟨"B", []⟩]
    ∧ ([⟨"B", ([] : List String)⟩] : List RestackConflict) ≠
        [⟨"B", ["x.rs"]⟩] := by
  exact ⟨rfl, by decide⟩

/-- C6 amended: whenever `restack` parks on a conflicting branch, the
`RestackConflict` entry recorded for it carries the *empty* file list —
`StackService::get_conflict_files` is a stub that never inspects the
working tree. -/
theorem c6_conflict_files_amended {σ : Type} (B : GitBackend σ) (g0 : σ)
    (m : StackMetadata) (sid now : Nat)
    (out : RestackResult × StackMetadata × σ)
    (h : restack B g0 m sid now = .ok out) :
    ∀ c ∈ out.1.conflicts, c.files = [] := by
  unfold restack at h
  rcases hfind : m.find_stack sid with _ | stack <;> rw [hfind] at h
  · exact absurd h (by simp)
  · simp only [Except.ok.injEq] at h
    subst h
    exact restackGo_conflict_files B sid stack.topological_order _ (by simp)

/-- C6 witness: the amended theorem applied to the concrete conflicting
run, extracting that the entry recorded for `B` has no files. -/
theorem c6_conflict_files_witness :
    (⟨"B", ([] : List String)⟩ : RestackConflict).files = [] :=
  c6_conflict_files_amended conflictBackend () mdABC 0 9 _ rfl
    ⟨"B", []⟩ (by decide)

/-! ## Claim C2: recorded head shas after restack -/

/-- A document whose only branch `A` records the stale sha `oldA`. -/
def c2md : StackMetadata :=
  ⟨1, [⟨0, "main", [⟨"A", "main", none, .upToDate, 0, some "oldA"⟩], 0, 0⟩], none⟩

/-- C2 counterexample: under `skipBackend` branch `A` does not need a
rebase, so `restack` reports it in `restacked` without touching its
metadata: the persisted document still records `oldA` while git's current
head of `A` is `new-A`. -/
theorem c2_counterexample :
    restack skipBackend () c2md 0 9 =
      .ok (⟨.success, ["A"], [], none⟩, { c2md with last_sync := some 9 }, ())
    ∧ branchShaIn { c2md with last_sync := some 9 } 0 "A" = some (some "oldA")
    ∧ skipBackend.get_head_sha () "A" = .ok "new-A"
    ∧ (some "oldA" : Option String) ≠ some "new-A" := by
  refine ⟨rfl, rfl, rfl, by decide⟩

/-- C2 amended: a branch skipped as not needing a rebase is reported in
`restacked` with its metadata — in particular its recorded `head_sha` —
untouched (so the record may be stale); a branch that was actually rebased
has its `head_sha` set to the sha read from git right after the
force-push, when that read succeeds. -/
theorem c2_head_sha_amended {σ : Type} (B : GitBackend σ) (sid : Nat) :
    (∀ (st : RestackState σ) (b : StackBranch),
      B.needs_rebase st.git b.name b.parent = .ok false →
      restackStep B sid st b =
        ({ st with restacked := st.restacked ++ [b.name] }, false))
    ∧ (∀ (st : RestackState σ) (b : StackBranch) (g1 : σ) (sha : String),
      B.needs_rebase st.git b.name b.parent ≠ .ok false →
      B.rebase st.git b.name b.parent = (.ok (), g1) →
      B.get_head_sha (B.force_push g1 b.name "origin").2 b.name = .ok sha →
      restackStep B sid st b =
        ({ st with
            git := (B.force_push g1 b.name "origin").2
            restacked := st.restacked ++ [b.name]
            md := updateBranchInStack st.md sid b.name (fun br =>
              { br with status := .upToDate, head_sha := some sha }) }, false)) := by
  constructor
  · intro st b h
    exact restackStep_eq_skip h
  · intro st b g1 sha hn hr hs
    rw [restackStep_eq_rebased hn hr]
    simp only [hs]

/-- The initial loop state of a restack over `mdABC`. -/
def st0 : RestackState Unit := ⟨(), mdABC, .success, [], [], none⟩

/-- C2 witness: the amended theorem applied to concrete steps — skipping
`A` under `skipBackend`, and rebasing `C` under `conflictBackend` (whose
fresh head is `new-C`). -/
theorem c2_head_sha_witness :
    restackStep skipBackend 0 st0 brA =
      ({ st0 with restacked := ["A"] }, false)
    ∧ restackStep conflictBackend 0 st0 brC =
      ({ st0 with
          restacked := ["C"]
          md := updateBranchInStack st0.md 0 "C" (fun br =>
            { br with status := .upToDate, head_sha := some "new-C" }) }, false) :=
  ⟨(c2_head_sha_amended skipBackend 0).1 st0 brA rfl,
    (c2_head_sha_amended conflictBackend 0).2 st0 brC () "new-C"
      (fun hh => absurd (Except.ok.inj hh) (by decide)) rfl rfl⟩

/-! ## Claim C1: a conflict parks the restack -/

/-- Rust `hay.contains(needle)` holds whenever the haystack is built around
the needle. -/
theorem containsSubstr_of_append (p n s : String) :
    containsSubstr (p ++ n ++ s) n = true := by
  simp only [containsSubstr, decide_eq_true_eq]
  exact ⟨p.toList, s.toList, by simp [String.toList]⟩

/-- The display string of a `Conflict` error always contains `"conflict"`,
so `restack` classifies it as a conflict. -/
theorem conflict_contains (files : List String) :
    containsSubstr (appErrorString (.conflict files)) "conflict" = true := by
  have h : appErrorString (.conflict files) =
      ("Git operation failed: Merge " ++ "conflict") ++ (" in: " ++ debugList files) := by
    show "Git operation failed: " ++ ("Merge conflict in: " ++ debugList files) = _
    rw [← String.append_assoc, ← String.append_assoc]
    rfl
  rw [h]
  exact containsSubstr_of_append _ _ _

/-- Walking the concatenation of two lists when the first half does not
break: resume the second half from the prefix's final state. -/
theorem restackGo_append {σ : Type} (B : GitBackend σ) (sid : Nat)
    (l1 l2 : List StackBranch) (st st1 : RestackState σ)
    (h : restackGo B sid l1 st = (st1, false)) :
    restackGo B sid (l1 ++ l2) st = restackGo B sid l2 st1 := by
  induction l1 generalizing st with
  | nil =>
    simp only [restackGo, Prod.mk.injEq] at h
    obtain ⟨h1, -⟩ := h
    subst h1
    rfl
  | cons b rest ih =>
    simp only [List.cons_append, restackGo] at h ⊢
    rcases hstep : restackStep B sid st b with ⟨st2, brk⟩
    simp only [hstep] at h ⊢
    cases brk
    · exact ih st2 h
    · simp only [Prod.mk.injEq] at h
      exact absurd h.2 (by decide)

/-- A walk iteration that does not break leaves the result-status fields
(`status`, `conflicts`, `error`) untouched. -/
theorem restackStep_noBreak_fields {σ : Type} {B : GitBackend σ} {sid : Nat}
    {st st1 : RestackState σ} {b : StackBranch}
    (h : restackStep B sid st b = (st1, false)) :
    st1.status = st.status ∧ st1.conflicts = st.conflicts ∧
      st1.error = st.error := by
  by_cases hn : B.needs_rebase st.git b.name b.parent = .ok false
  · rw [restackStep_eq_skip hn, Prod.mk.injEq] at h
    obtain ⟨h1, -⟩ := h
    subst h1
    exact ⟨rfl, rfl, rfl⟩
  · rcases hr : B.rebase st.git b.name b.parent with ⟨r, g1⟩
    rcases r with e | u
    · by_cases hc : containsSubstr (appErrorString e) "conflict" = true
      · rw [restackStep_eq_conflict hn hr hc, Prod.mk.injEq] at h
        exact absurd h.2 (by decide)
      · rw [restackStep_eq_failed hn hr (by simpa using hc), Prod.mk.injEq] at h
        exact absurd h.2 (by decide)
    · rw [restackStep_eq_rebased hn hr, Prod.mk.injEq] at h
      obtain ⟨h1, -⟩ := h
      subst h1
      exact ⟨rfl, rfl, rfl⟩

/-- A full walk with no break leaves the result-status fields untouched. -/
theorem restackGo_noBreak_fields {σ : Type} {B : GitBackend σ} {sid : Nat}
    {l : List StackBranch} {st st1 : RestackState σ}
    (h : restackGo B sid l st = (st1, false)) :
    st1.status = st.status ∧ st1.conflicts = st.conflicts ∧
      st1.error = st.error := by
  induction l generalizing st with
  | nil =>
    simp only [restackGo, Prod.mk.injEq] at h
    obtain ⟨h1, -⟩ := h
    subst h1
    exact ⟨rfl, rfl, rfl⟩
  | cons b rest ih =>
    simp only [restackGo] at h
    rcases hstep : restackStep B sid st b with ⟨st2, brk⟩
    simp only [hstep] at h
    cases brk
    · obtain ⟨h1, h2, h3⟩ := restackStep_noBreak_fields hstep
      obtain ⟨g1, g2, g3⟩ := ih h
      exact ⟨g1.trans h1, g2.trans h2, g3.trans h3⟩
    · simp only [Prod.mk.injEq] at h
      exact absurd h.2 (by decide)

/-- A lookup of branch `n` after updating the first branch named `name`
with a name-preserving `f`: the lookup of `name` passes through `f`, other
lookups are untouched. -/
theorem find?_updateBranchNamed (bs : List StackBranch) (name : String)
    (f : StackBranch → StackBranch) (hf : ∀ br, (f br).name = br.name)
    (n : String) :
    (updateBranchNamed bs name f).find? (fun b => b.name = n) =
      if n = name then (bs.find? (fun b => b.name = n)).map f
      else bs.find? (fun b => b.name = n) := by
  induction bs with
  | nil => by_cases hn : n = name <;> simp [updateBranchNamed, hn]
  | cons b rest ih =>
    unfold updateBranchNamed
    by_cases hb : b.name = name
    · by_cases hn : n = name
      · subst hn
        simp [List.find?, hf, hb]
      · have hbn : ¬ (b.name = n) := by
          rw [hb]; exact fun hh => hn hh.symm
        have hfn : ¬ ((f b).name = n) := by
          rw [hf]; exact hbn
        have hnm : ¬ (name = n) := fun hh => hn hh.symm
        simp [List.find?, hb, hn, hbn, hfn, hnm]
    · by_cases hn : n = name
      · subst hn
        simp [List.find?, hb, ih]
      · by_cases hbn : b.name = n
        · simp [List.find?, hb, hn, hbn]
        · simp [List.find?, hb, hn, hbn, ih]

/-- A lookup of stack `j` after updating the first stack with id `id` by an
id-preserving `f`. -/
theorem find?_updateStackById (ss : List Stack) (id : Nat)
    (f : Stack → Stack) (hf : ∀ s, (f s).id = s.id) (j : Nat) :
    (updateStackById ss id f).find? (fun s => s.id = j) =
      if j = id then (ss.find? (fun s => s.id = j)).map f
      else ss.find? (fun s => s.id = j) := by
  induction ss with
  | nil => by_cases hj : j = id <;> simp [updateStackById, hj]
  | cons s rest ih =>
    unfold updateStackById
    by_cases hs : s.id = id
    · by_cases hj : j = id
      · subst hj
        simp [List.find?, hf, hs]
      · have hsj : ¬ (s.id = j) := by
          rw [hs]; exact fun hh => hj hh.symm
        have hfj : ¬ ((f s).id = j) := by
          rw [hf]; exact hsj
        have hjm : ¬ (id = j) := fun hh => hj hh.symm
        simp [List.find?, hs, hj, hsj, hfj, hjm]
    · by_cases hj : j = id
      · subst hj
        simp [List.find?, hs, ih]
      · by_cases hsj : s.id = j
        · simp [List.find?, hs, hj, hsj]
        · simp [List.find?, hs, hj, hsj, ih]

/-- Looking a branch up in the first stack with id `sid` after
`updateBranchInStack m sid name f`, for a name-preserving `f`. -/
theorem bindFind_updateBranchInStack (m : StackMetadata) (sid : Nat)
    (name : String) (f : StackBranch → StackBranch)
    (hf : ∀ br, (f br).name = br.name) (n : String) :
    (((updateBranchInStack m sid name f).find_stack sid).bind
        (fun s => s.find_branch n)) =
      if n = name then
        (((m.find_stack sid).bind (fun s => s.find_branch n)).map f)
      else (m.find_stack sid).bind (fun s => s.find_branch n) := by
  unfold updateBranchInStack StackMetadata.find_stack
  rw [find?_updateStackById m.stacks' sid
    (fun s => { s with branches := updateBranchNamed s.branches name f })
    (fun s => rfl) sid, if_pos rfl]
  cases hfound : m.stacks'.find? (fun s => s.id = sid) with
  | none => split <;> rfl
  | some s =>
    show Stack.find_branch
        { s with branches := updateBranchNamed s.branches name f } n =
      if n = name then (s.find_branch n).map f else s.find_branch n
    unfold Stack.find_branch
    exact find?_updateBranchNamed s.branches name f hf n

/-- `branchStatusIn` is unchanged at other branch names by
`updateBranchInStack` with a name-preserving `f`. -/
theorem branchStatusIn_update_ne (m : StackMetadata) (sid : Nat)
    (name : String) (f : StackBranch → StackBranch)
    (hf : ∀ br, (f br).name = br.name) (n : String) (hn : n ≠ name) :
    branchStatusIn (updateBranchInStack m sid name f) sid n =
      branchStatusIn m sid n := by
  unfold branchStatusIn
  rw [bindFind_updateBranchInStack m sid name f hf n, if_neg hn]

/-- `branchStatusIn` at the updated branch name becomes the status written
by `f`, whenever the branch exists. -/
theorem branchStatusIn_update_self (m : StackMetadata) (sid : Nat)
    (name : String) (v : BranchStatus) (f : StackBranch → StackBranch)
    (hf : ∀ br, (f br).name = br.name ∧ (f br).status = v) :
    branchStatusIn (updateBranchInStack m sid name f) sid name =
      (branchStatusIn m sid name).map (fun _ => v) := by
  unfold branchStatusIn
  rw [bindFind_updateBranchInStack m sid name f (fun br => (hf br).1) name,
    if_pos rfl]
  cases (m.find_stack sid).bind (fun s => s.find_branch name) with
  | none => rfl
  | some br => simp [(hf br).2]

/-- A non-breaking `restack` iteration touches no branch status except
possibly the current branch's, which it sets to `UpToDate`. -/
theorem restackStep_noBreak_status {σ : Type} {B : GitBackend σ} {sid : Nat}
    {st st1 : RestackState σ} {b : StackBranch}
    (h : restackStep B sid st b = (st1, false)) (n : String) :
    branchStatusIn st1.md sid n = branchStatusIn st.md sid n ∨
      (n = b.name ∧ branchStatusIn st1.md sid n =
        (branchStatusIn st.md sid n).map (fun _ => BranchStatus.upToDate)) := by
  by_cases hn : B.needs_rebase st.git b.name b.parent = .ok false
  · rw [restackStep_eq_skip hn, Prod.mk.injEq] at h
    obtain ⟨h1, -⟩ := h
    subst h1
    exact .inl rfl
  · rcases hr : B.rebase st.git b.name b.parent with ⟨r, g1⟩
    rcases r with e | u
    · by_cases hc : containsSubstr (appErrorString e) "conflict" = true
      · rw [restackStep_eq_conflict hn hr hc, Prod.mk.injEq] at h
        exact absurd h.2 (by decide)
      · rw [restackStep_eq_failed hn hr (by simpa using hc), Prod.mk.injEq] at h
        exact absurd h.2 (by decide)
    · rw [restackStep_eq_rebased hn hr, Prod.mk.injEq] at h
      obtain ⟨h1, -⟩ := h
      subst h1
      by_cases hbn : n = b.name
      · subst hbn
        refine .inr ⟨rfl, ?_⟩
        exact branchStatusIn_update_self st.md sid b.name .upToDate
          (fun br =>
            { br with
                status := .upToDate
                head_sha :=
                  match B.get_head_sha (B.force_push g1 b.name "origin").2 b.name with
                  | .ok sha => some sha
                  | .error _ => br.head_sha })
          (fun br => ⟨rfl, rfl⟩)
      · exact .inl (branchStatusIn_update_ne st.md sid b.name
          (fun br =>
            { br with
                status := .upToDate
                head_sha :=
                  match B.get_head_sha (B.force_push g1 b.name "origin").2 b.name with
                  | .ok sha => some sha
                  | .error _ => br.head_sha })
          (fun br => rfl) n hbn)

/-- A non-breaking walk over `l` touches no branch status outside `l`'s
names, and whatever it touches it sets to `UpToDate`. -/
theorem restackGo_noBreak_status {σ : Type} {B : GitBackend σ} {sid : Nat}
    {l : List StackBranch} {st st1 : RestackState σ}
    (h : restackGo B sid l st = (st1, false)) (n : String) :
    branchStatusIn st1.md sid n = branchStatusIn st.md sid n ∨
      (n ∈ l.map StackBranch.name ∧
        branchStatusIn st1.md sid n = some .upToDate) := by
  induction l generalizing st with
  | nil =>
    simp only [restackGo, Prod.mk.injEq] at h
    obtain ⟨h1, -⟩ := h
    subst h1
    exact .inl rfl
  | cons b rest ih =>
    simp only [restackGo] at h
    rcases hstep : restackStep B sid st b with ⟨st2, brk⟩
    simp only [hstep] at h
    cases brk
    · rcases ih h with hA | ⟨hmem, hval⟩
      · rcases restackStep_noBreak_status hstep n with hB | ⟨hbn, hB⟩
        · exact .inl (hA.trans hB)
        · cases hst : branchStatusIn st.md sid n with
          | none => exact .inl (by rw [hA, hB, hst]; rfl)
          | some v => exact .inr ⟨by simp [hbn], by rw [hA, hB, hst]; rfl⟩
      · exact .inr ⟨by simp [hmem], hval⟩
    · simp only [Prod.mk.injEq] at h
      exact absurd h.2 (by decide)

/-- Every branch emitted by the `topological_order` loop comes from the
stack's branch list. -/
theorem topoLoop_subset (branches : List StackBranch) :
    ∀ (fuel : Nat) (visited stk : List String) (acc : List StackBranch),
      (∀ x ∈ acc, x ∈ branches) →
      ∀ x ∈ topoLoop branches fuel visited stk acc, x ∈ branches := by
  intro fuel
  induction fuel with
  | zero => intro visited stk acc hacc; exact hacc
  | succ fuel ih =>
    intro visited stk acc hacc
    cases stk with
    | nil => exact hacc
    | cons current rest =>
      unfold topoLoop
      by_cases hv : visited.contains current
      · simp only [hv, if_true]
        exact ih visited rest acc hacc
      · simp only [hv, if_false]
        refine ih _ _ _ ?_
        intro x hx
        rcases List.mem_append.mp hx with hx | hx
        · exact hacc x hx
        · exact List.mem_of_mem_filter (List.mem_of_mem_filter hx)

/-- Branches in `topological_order` belong to the stack. -/
theorem topological_order_subset (s : Stack) :
    ∀ x ∈ s.topological_order, x ∈ s.branches :=
  topoLoop_subset s.branches _ [] [s.root] [] (by simp)

/-- C1: when the walk reaches branch `b` (having processed `pre` without
incident) and `b`'s rebase fails with a `Conflict`, `restack` classifies
it, appends exactly the one conflict entry for `b`, sets the result status
to `conflicts`, aborts the rebase, marks `b` (and only `b`) `conflicted`,
and stops: the returned result, document and git state are those computed
from `pre` and `b` alone — the suffix `suf` does not occur in them — and
every branch of `suf` keeps the status it had in the input document. -/
theorem c1_conflict_parks_restack {σ : Type} (B : GitBackend σ) (g0 : σ)
    (m : StackMetadata) (sid now : Nat) (stack : Stack)
    (pre suf : List StackBranch) (b : StackBranch) (files : List String)
    (st1 : RestackState σ) (g1 : σ)
    (hstack : m.find_stack sid = some stack)
    (htopo : stack.topological_order = pre ++ b :: suf)
    (hnodup : ((pre ++ b :: suf).map StackBranch.name).Nodup)
    (hpre : restackGo B sid pre ⟨g0, m, .success, [], [], none⟩ = (st1, false))
    (hneeds : B.needs_rebase st1.git b.name b.parent ≠ .ok false)
    (hreb : B.rebase st1.git b.name b.parent = (.error (.conflict files), g1)) :
    restack B g0 m sid now =
      .ok (⟨.conflicts, st1.restacked, [⟨b.name, []⟩], none⟩,
        { updateBranchInStack st1.md sid b.name
            (fun br => { br with status := .conflicted }) with
          last_sync := some now },
        B.abort_rebase g1)
    ∧ branchStatusIn
        (updateBranchInStack st1.md sid b.name
          (fun br => { br with status := .conflicted })) sid b.name =
        some .conflicted
    ∧ (∀ c ∈ suf,
        branchStatusIn
          (updateBranchInStack st1.md sid b.name
            (fun br => { br with status := .conflicted })) sid c.name =
          branchStatusIn m sid c.name)
    ∧ (∀ n, n ≠ b.name →
        branchStatusIn st1.md sid n = branchStatusIn m sid n ∨
          branchStatusIn st1.md sid n = some .upToDate) := by
  obtain ⟨hfields1, hfields2, hfields3⟩ := restackGo_noBreak_fields hpre
  have hgo : restackGo B sid stack.topological_order
      ⟨g0, m, .success, [], [], none⟩ =
      ({ st1 with
          git := B.abort_rebase g1
          status := .conflicts
          conflicts := st1.conflicts ++ [⟨b.name, get_conflict_files⟩]
          md := updateBranchInStack st1.md sid b.name (fun br =>
            { br with status := .conflicted }) }, true) := by
    rw [htopo, restackGo_append B sid pre (b :: suf) _ st1 hpre]
    simp only [restackGo]
    rw [restackStep_eq_conflict hneeds hreb (conflict_contains files)]
  have hstatus_b : (branchStatusIn m sid b.name).isSome := by
    have hb : b ∈ stack.branches :=
      topological_order_subset stack b (by rw [htopo]; simp)
    unfold branchStatusIn
    rw [hstack]
    rcases hfb : stack.find_branch b.name with _ | br
    · exfalso
      unfold Stack.find_branch at hfb
      have := List.find?_eq_none.mp hfb b hb
      simp at this
    · simp [hfb]
  rw [List.map_append, List.map_cons] at hnodup
  obtain ⟨-, hnd2, hdisj⟩ := List.nodup_append.mp hnodup
  have hred : restack B g0 m sid now =
      (let stF := (restackGo B sid stack.topological_order
        ⟨g0, m, .success, [], [], none⟩).1
      .ok (⟨stF.status, stF.restacked, stF.conflicts, stF.error⟩,
        { stF.md with last_sync := some now }, stF.git)) := by
    unfold restack
    rw [hstack]
  refine ⟨?_, ?_, ?_, ?_⟩
  · rw [hred]
    simp only [hgo]
    rw [hfields2, hfields3]
    rfl
  · rw [branchStatusIn_update_self st1.md sid b.name .conflicted
      (fun br => { br with status := .conflicted }) (fun br => ⟨rfl, rfl⟩)]
    rcases restackGo_noBreak_status hpre b.name with hA | ⟨-, hval⟩
    · rw [hA]
      rcases Option.isSome_iff_exists.mp hstatus_b with ⟨v, hv⟩
      rw [show branchStatusIn (⟨g0, m, .success, [], [], none⟩ :
        RestackState σ).md sid b.name = branchStatusIn m sid b.name from rfl, hv]
      rfl
    · rw [hval]
      rfl
  · intro c hc
    have hcmem : c.name ∈ suf.map StackBranch.name :=
      List.mem_map_of_mem _ hc
    have hcb : c.name ≠ b.name := by
      intro hh
      exact (List.nodup_cons.mp hnd2).1 (hh ▸ hcmem)
    rw [branchStatusIn_update_ne st1.md sid b.name
      (fun br => { br with status := .conflicted }) (fun br => rfl) c.name hcb]
    rcases restackGo_noBreak_status hpre c.name with hA | ⟨hmem, -⟩
    · exact hA
    · exact absurd hmem (fun hh => hdisj hh (List.mem_cons_of_mem _ hcmem))
  · intro n _
    rcases restackGo_noBreak_status hpre n with hA | ⟨-, hval⟩
    · exact .inl hA
    · exact .inr hval

/-- C1 witness: the spec's conflict scenario — stack `A, B, C` where `A`
is current and rebasing `B` conflicts — parks with exactly one conflict
entry, `restacked = [A]`, and `C` untouched. -/
theorem c1_conflict_parks_witness :
    restack conflictBackend () mdABC 0 9 =
      .ok (⟨.conflicts, ["A"], [⟨"B", []⟩], none⟩,
        { updateBranchInStack mdABC 0 "B"
            (fun br => { br with status := .conflicted }) with
          last_sync := some 9 },
        ()) :=
  (c1_conflict_parks_restack conflictBackend () mdABC 0 9 stABC [brA] [brC]
    brB [] ⟨(), mdABC, .success, ["A"], [], none⟩ ()
    rfl rfl (by decide) rfl
    (fun hh => absurd (Except.ok.inj hh) (by decide)) rfl).1

/-! ## Claim C4: idempotence of reconcile -/

/-- A document whose only branch `A` exists in git, is well-stacked, but
records a stale sha. -/
def c4md : StackMetadata :=
  ⟨1, [⟨0, "main", [⟨"A", "main", none, .unknown, 0, some "old"⟩], 0, 0⟩], none⟩

/-- A fixed git state for the C4 scenario: every branch exists, parents are
ancestors, nothing needs a rebase, and heads are at fresh shas. -/
def c4view : GitView where
  branch_exists := fun _ => true
  is_ancestor := fun _ _ => .ok true
  needs_rebase := fun _ _ => .ok false
  get_head_sha := fun n => .ok ("h-" ++ n)

/-- C4 counterexample: with a stale recorded sha, the first `reconcile`
reports `ExternallyModified` for `A` and updates the sha, so the second
run's report (no warnings) differs from the first — the reports of two
consecutive runs are not identical. -/
theorem c4_counterexample :
    (reconcile c4view c4md).1.warnings = [⟨"A", .externallyModified⟩]
    ∧ (reconcile c4view ((reconcile c4view c4md).2)).1.warnings = []
    ∧ (reconcile c4view c4md).1 ≠
        (reconcile c4view ((reconcile c4view c4md).2)).1 := by
  refine ⟨rfl, rfl, fun h => ?_⟩
  exact absurd (congrArg ReconcileReport.warnings h) (by decide)

/-- Map a function over every branch of every stack of a document. -/
def mapBranches (f : StackBranch → StackBranch) (m : StackMetadata) :
    StackMetadata :=
  { m with stacks' := m.stacks'.map (fun s =>
      { s with branches := s.branches.map f }) }

/-- All branch names of the document, in document order. -/
def docNames (m : StackMetadata) : List String :=
  m.stacks'.flatMap (fun s => s.branches.map (fun b => b.name))

/-- The branch as `reconcile` leaves it: the collected update of the
branch, applied to it. -/
def normBranch (g : GitView) (b : StackBranch) : StackBranch :=
  applyVals (reconcileEntry g b).1 b

/-- The collected update's branch name is the branch's name. -/
theorem reconcileEntry_fst_name (g : GitView) (b : StackBranch) :
    (reconcileEntry g b).1.1 = b.name := by
  unfold reconcileEntry
  split <;> rfl

/-- The collected orphan flag depends only on the branch's name. -/
theorem reconcileEntry_snd (g : GitView) (b : StackBranch) :
    (reconcileEntry g b).2 = !g.branch_exists b.name := by
  unfold reconcileEntry
  by_cases hex : g.branch_exists b.name <;> simp [hex]

/-- `applyVals` preserves the branch name. -/
theorem applyVals_name (u : ReconcileUpdate) (b : StackBranch) :
    (applyVals u b).name = b.name := rfl

/-- Applying the same update twice is the same as applying it once. -/
theorem applyVals_idem (u : ReconcileUpdate) (b : StackBranch) :
    applyVals u (applyVals u b) = applyVals u b := by
  rcases u with ⟨n, st, sha, w⟩
  cases sha <;> rfl

/-- Two branches with the same name and parent collect the same status
(the status of an update never reads the recorded sha). -/
theorem reconcileEntry_status_congr (g : GitView) {b b' : StackBranch}
    (hn : b.name = b'.name) (hp : b.parent = b'.parent) :
    (reconcileEntry g b).1.2.1 = (reconcileEntry g b').1.2.1 := by
  unfold reconcileEntry
  rw [hn, hp]
  by_cases hex : g.branch_exists b'.name <;> simp [hex]

/-- The recorded sha after one reconcile of a branch: refreshed to git's
current head when the branch exists and the head is readable, untouched
otherwise. -/
theorem normBranch_head_sha (g : GitView) (b : StackBranch) :
    (normBranch g b).head_sha =
      if g.branch_exists b.name then
        match g.get_head_sha b.name with
        | .ok sha => some sha
        | .error _ => b.head_sha
      else b.head_sha := by
  unfold normBranch applyVals reconcileEntry
  by_cases hex : g.branch_exists b.name
  · rcases hsha : g.get_head_sha b.name with e | sha
    · simp [hex, hsha]
    · by_cases hold : b.head_sha = some sha
      · simp [hex, hsha, hold]
      · simp [hex, hsha, hold]
  · simp [hex]

/-- Field-wise equality of branches. -/
theorem stackBranch_eq {x y : StackBranch} (h1 : x.name = y.name)
    (h2 : x.parent = y.parent) (h3 : x.pr_number = y.pr_number)
    (h4 : x.status = y.status) (h5 : x.created_at = y.created_at)
    (h6 : x.head_sha = y.head_sha) : x = y := by
  cases x
  cases y
  simp_all

/-- Reconciling a branch twice writes the same branch as reconciling it
once. -/
theorem normBranch_idem (g : GitView) (b : StackBranch) :
    normBranch g (normBranch g b) = normBranch g b := by
  have hname : (normBranch g b).name = b.name := rfl
  have hparent : (normBranch g b).parent = b.parent := rfl
  refine stackBranch_eq rfl rfl rfl ?_ rfl ?_
  · show (reconcileEntry g (normBranch g b)).1.2.1 = (reconcileEntry g b).1.2.1
    exact reconcileEntry_status_congr g hname hparent
  · rw [normBranch_head_sha g (normBranch g b), hname,
      normBranch_head_sha g b]
    by_cases hex : g.branch_exists b.name
    · rcases hsha : g.get_head_sha b.name with e | sha <;>
        simp [hex, hsha, normBranch_head_sha]
    · simp [hex, normBranch_head_sha, hname]

/-- With distinct branch names, updating the first branch named `n` is a
pointwise map over the list. -/
theorem updateBranchNamed_eq_map (bs : List StackBranch) (n : String)
    (f : StackBranch → StackBranch)
    (hnd : (bs.map (fun b => b.name)).Nodup) :
    updateBranchNamed bs n f =
      bs.map (fun b => if b.name = n then f b else b) := by
  induction bs with
  | nil => rfl
  | cons b rest ih =>
    simp only [List.map_cons, List.nodup_cons] at hnd
    obtain ⟨hhead, htail⟩ := hnd
    unfold updateBranchNamed
    by_cases hb : b.name = n
    · have hrest : rest.map (fun x => if x.name = n then f x else x) = rest := by
        refine (List.map_congr_left ?_).trans (List.map_id rest)
        intro x hx
        refine if_neg (fun hh => hhead ?_)
        rw [hb, ← hh]
        exact List.mem_map_of_mem _ hx
      simp only [hb, if_true, List.map_cons, if_pos hb, hrest]
    · simp only [hb, if_false, List.map_cons, if_neg hb]
      rw [ih htail]

/-- With document-wide distinct branch names, one apply step is a
pointwise map over every branch of every stack. -/
theorem applyUpdateStacks_eq_map (ss : List Stack) (u : ReconcileUpdate)
    (hnd : (ss.flatMap (fun s => s.branches.map (fun b => b.name))).Nodup) :
    applyUpdateStacks ss u =
      ss.map (fun s =>
        { s with branches := s.branches.map (fun b => if b.name = u.1 then applyVals u b else b) }) := by
  induction ss with
  | nil => rfl
  | cons s rest ih =>
    simp only [List.flatMap_cons] at hnd
    obtain ⟨hnd1, hnd2, hdisj⟩ := List.nodup_append.mp hnd
    unfold applyUpdateStacks
    by_cases hany : s.branches.any (fun b => b.name = u.1) = true
    · simp only [hany, if_true, List.map_cons]
      congr 1
      · congr 1
        exact updateBranchNamed_eq_map s.branches u.1 (applyVals u) hnd1
      · obtain ⟨b0, hb0, hb0n⟩ := List.any_eq_true.mp hany
        have hnotrest : ∀ s' ∈ rest, ∀ b ∈ s'.branches, ¬ (b.name = u.1) := by
          intro s' hs' b hb hbu
          refine hdisj (a := u.1) ?_ ?_
          · rw [← (by simpa using hb0n : b0.name = u.1)]
            exact List.mem_map_of_mem _ hb0
          · refine List.mem_flatMap.mpr ⟨s', hs', ?_⟩
            rw [← hbu]
            exact List.mem_map_of_mem _ hb
        symm
        apply List.map_congr_left ?_ |>.trans (List.map_id rest)
        intro s' hs'
        have : s'.branches.map (fun b => if b.name = u.1 then applyVals u b else b) =
            s'.branches := by
          apply (List.map_congr_left ?_).trans (List.map_id s'.branches)
          intro b hb
          exact if_neg (hnotrest s' hs' b hb)
        rw [this]
        rfl
    · have hnone : ∀ b ∈ s.branches, ¬ (b.name = u.1) := by
        intro b hb hbu
        exact absurd (List.any_eq_true.mpr ⟨b, hb, by simpa using hbu⟩) hany
      have hhead : s.branches.map (fun b => if b.name = u.1 then applyVals u b else b) =
          s.branches := by
        apply (List.map_congr_left ?_).trans (List.map_id s.branches)
        intro b hb
        exact if_neg (hnone b hb)
      simp only [List.map_cons]
      rw [if_neg hany, ih hnd2]
      congr 1
      rw [hhead]

/-- Mapping the identity over every branch is the identity. -/
theorem mapBranches_id (m : StackMetadata) :
    mapBranches (fun b => b) m = m := by
  unfold mapBranches
  have h : ∀ ss : List Stack,
      ss.map (fun s => { s with branches := s.branches.map (fun b => b) }) = ss := by
    intro ss
    induction ss with
    | nil => rfl
    | cons s rest ih => simp [ih, List.map_id]
  rw [h]

/-- `mapBranches` composes. -/
theorem mapBranches_comp (f g : StackBranch → StackBranch) (m : StackMetadata) :
    mapBranches f (mapBranches g m) = mapBranches (fun b => f (g b)) m := by
  unfold mapBranches
  simp [List.map_map, Function.comp]

/-- `mapBranches` by a name-preserving function keeps `docNames`. -/
theorem docNames_mapBranches (f : StackBranch → StackBranch)
    (hf : ∀ b, (f b).name = b.name) (m : StackMetadata) :
    docNames (mapBranches f m) = docNames m := by
  unfold docNames mapBranches
  have h : ∀ ss : List Stack,
      (ss.map (fun s => { s with branches := s.branches.map f })).flatMap
        (fun s => s.branches.map (fun b => b.name)) =
      ss.flatMap (fun s => s.branches.map (fun b => b.name)) := by
    intro ss
    induction ss with
    | nil => rfl
    | cons s rest ih =>
      simp only [List.map_cons, List.flatMap_cons, ih, List.map_map]
      congr 1
      exact List.map_congr_left (fun b _ => hf b)
  rw [h]

/-- What the apply fold does to a single branch for a single update. -/
def stepB (b : StackBranch) (u : ReconcileUpdate) : StackBranch :=
  if b.name = u.1 then applyVals u b else b

/-- Folding all updates over a nodup document applies them branch-wise. -/
theorem foldl_applyUpdate_eq (E : List ReconcileUpdate) (m : StackMetadata)
    (hnd : (docNames m).Nodup) :
    E.foldl applyUpdate m = mapBranches (fun b => E.foldl stepB b) m := by
  induction E generalizing m with
  | nil => exact (mapBranches_id m).symm
  | cons u E2 ih =>
    rw [List.foldl_cons]
    have h1 : applyUpdate m u = mapBranches (fun b => stepB b u) m := by
      unfold applyUpdate mapBranches stepB
      congr 1
      exact applyUpdateStacks_eq_map m.stacks' u hnd
    have hnd1 : (docNames (mapBranches (fun b => stepB b u) m)).Nodup := by
      rw [docNames_mapBranches _ (fun b => by unfold stepB; split <;> rfl) m]
      exact hnd
    rw [h1, ih _ hnd1, mapBranches_comp]
    simp only [List.foldl_cons]

/-- Updates whose names all miss the branch leave it untouched. -/
theorem foldl_stepB_of_no_match (E : List ReconcileUpdate) (b : StackBranch)
    (h : ∀ u ∈ E, u.1 ≠ b.name) : E.foldl stepB b = b := by
  induction E with
  | nil => rfl
  | cons u E2 ih =>
    rw [List.foldl_cons,
      show stepB b u = b from if_neg (fun hh => h u (by simp) hh.symm)]
    exact ih (fun u2 hu2 => h u2 (List.mem_cons_of_mem _ hu2))

/-- A branch on which every matching update acts as the identity is a
fixed point of the fold. -/
theorem foldl_stepB_stable (E : List ReconcileUpdate) (b : StackBranch)
    (h : ∀ u ∈ E, u.1 = b.name → applyVals u b = b) : E.foldl stepB b = b := by
  induction E with
  | nil => rfl
  | cons u E2 ih =>
    have hstep : stepB b u = b := by
      unfold stepB
      by_cases hm : b.name = u.1
      · rw [if_pos hm]
        exact h u (by simp) hm.symm
      · exact if_neg hm
    rw [List.foldl_cons, hstep]
    exact ih (fun u2 hu2 => h u2 (List.mem_cons_of_mem _ hu2))

/-- When exactly one update matches the branch (all matching entries are
that one), the fold applies it once. -/
theorem foldl_stepB_single (E : List ReconcileUpdate) (b : StackBranch)
    (u0 : ReconcileUpdate) (hmem : u0 ∈ E) (hname : u0.1 = b.name)
    (huniq : ∀ u ∈ E, u.1 = b.name → u = u0) :
    E.foldl stepB b = applyVals u0 b := by
  induction E with
  | nil => cases hmem
  | cons u E2 ih =>
    by_cases hm : u.1 = b.name
    · obtain rfl : u0 = u := (huniq u (by simp) hm).symm
      rw [List.foldl_cons, show stepB b u0 = applyVals u0 b from if_pos hm.symm]
      refine foldl_stepB_stable E2 (applyVals u0 b) ?_
      intro u2 hu2 hn2
      obtain rfl : u2 = u0 := by
        refine huniq u2 (List.mem_cons_of_mem _ hu2) ?_
        rw [← applyVals_name u0 b]
        exact hn2
      exact applyVals_idem u2 b
    · rw [List.foldl_cons, show stepB b u = b from if_neg (fun hh => hm hh.symm)]
      have hmem2 : u0 ∈ E2 := by
        rcases List.mem_cons.mp hmem with h0 | h0
        · exact absurd (h0 ▸ hname) hm
        · exact h0
      exact ih hmem2 (fun u2 hu2 hn2 =>
        huniq u2 (List.mem_cons_of_mem _ hu2) hn2)

/-- All branches of the document, in document order. -/
def docBranches (m : StackMetadata) : List StackBranch :=
  m.stacks'.flatMap (fun s => s.branches)

/-- `docNames` is the names of `docBranches`. -/
theorem docNames_eq (m : StackMetadata) :
    docNames m = (docBranches m).map (fun b => b.name) := by
  unfold docNames docBranches
  induction m.stacks' with
  | nil => rfl
  | cons s rest ih =>
    simp only [List.flatMap_cons, List.map_append, ih]

/-- The collected update list is per-branch over the whole document. -/
theorem reconcileCollect_fst (g : GitView) (m : StackMetadata) :
    (reconcileCollect g m).1 =
      (docBranches m).map (fun b => (reconcileEntry g b).1) := by
  have h : ∀ ss : List Stack,
      ((ss.flatMap (fun s => s.branches.map (reconcileEntry g))).map (fun e => e.1)) =
      (ss.flatMap (fun s => s.branches)).map (fun b => (reconcileEntry g b).1) := by
    intro ss
    induction ss with
    | nil => rfl
    | cons s rest ih =>
      simp only [List.flatMap_cons, List.map_append, List.map_map, ih]
      rfl
  exact h m.stacks'


/-- The second component of `reconcile`: every branch of the document is
replaced by its reconciled form, provided branch names are distinct across
the document (data-model invariants III and IV). -/
theorem reconcile_snd_eq (g : GitView) (m : StackMetadata)
    (hnd : (docNames m).Nodup) :
    (reconcile g m).2 = mapBranches (normBranch g) m := by
  show ((reconcileCollect g m).1).foldl applyUpdate m = _
  rw [foldl_applyUpdate_eq _ m hnd, reconcileCollect_fst]
  unfold mapBranches
  congr 1
  refine List.map_congr_left ?_
  intro s hs
  congr 1
  refine List.map_congr_left ?_
  intro b hb
  have hbdoc : b ∈ docBranches m := by
    unfold docBranches
    exact List.mem_flatMap.mpr ⟨s, hs, hb⟩
  refine foldl_stepB_single _ b ((reconcileEntry g b).1)
    (List.mem_map_of_mem _ hbdoc) (reconcileEntry_fst_name g b) ?_
  intro u hu hn2
  rcases List.mem_map.mp hu with ⟨b2, hb2, rfl⟩
  have hb2n : b2.name = b.name := by
    rw [← reconcileEntry_fst_name g b2]
    exact hn2
  have : b2 = b :=
    List.inj_on_of_nodup_map (docNames_eq m ▸ hnd) hb2 hbdoc hb2n
  rw [this]

/-- The orphan list of the collect phase only reads branch names, so a
name-preserving rewrite of the document leaves it unchanged. -/
theorem reconcileCollect_snd_mapBranches (g : GitView)
    (f : StackBranch → StackBranch) (hf : ∀ b, (f b).name = b.name)
    (m : StackMetadata) :
    (reconcileCollect g (mapBranches f m)).2 = (reconcileCollect g m).2 := by
  have hbr : ∀ bs : List StackBranch,
      ((((bs.map f).map (reconcileEntry g)).filter (fun e => e.2)).map
        (fun e => e.1.1)) =
      (((bs.map (reconcileEntry g)).filter (fun e => e.2)).map
        (fun e => e.1.1)) := by
    intro bs
    induction bs with
    | nil => rfl
    | cons b bs2 ihb =>
      have hflag : (reconcileEntry g (f b)).2 = (reconcileEntry g b).2 := by
        rw [reconcileEntry_snd, reconcileEntry_snd, hf]
      have hname2 : (reconcileEntry g (f b)).1.1 = (reconcileEntry g b).1.1 := by
        rw [reconcileEntry_fst_name, reconcileEntry_fst_name, hf]
      simp only [List.map_cons, List.filter_cons, hflag]
      by_cases hfl : (reconcileEntry g b).2 = true
      · rw [if_pos hfl, if_pos hfl]
        simp only [List.map_cons, hname2]
        rw [ihb]
      · rw [if_neg hfl, if_neg hfl]
        exact ihb
  have h : ∀ ss : List Stack,
      ((((ss.map (fun s => { s with branches := s.branches.map f })).flatMap
          (fun s => s.branches.map (reconcileEntry g))).filter
            (fun e => e.2)).map (fun e => e.1.1)) =
      (((ss.flatMap (fun s => s.branches.map (reconcileEntry g))).filter
          (fun e => e.2)).map (fun e => e.1.1)) := by
    intro ss
    induction ss with
    | nil => rfl
    | cons s rest ih =>
      simp only [List.map_cons, List.flatMap_cons, List.filter_append,
        List.map_append, ih]
      congr 1
      exact hbr s.branches
  exact h m.stacks'

/-- C4 amended: against a fixed git state and a document with distinct
branch names, the metadata reached after one `reconcile` is a fixed point
(the second run leaves it unchanged), the orphan lists of the first and
second runs agree, and the reports are identical from the second run
onward; only the first run's warnings may differ, because
`ExternallyModified` fires exactly while the recorded sha is stale and the
first run refreshes it (a stale sha can also mask a `ParentNotAncestor` or
`ParentDeleted` warning on the first run). -/
theorem c4_reconcile_idem_amended (g : GitView) (m : StackMetadata)
    (hnd : (docNames m).Nodup) :
    (reconcile g ((reconcile g m).2)).2 = (reconcile g m).2
    ∧ (reconcile g ((reconcile g m).2)).1.orphaned = (reconcile g m).1.orphaned
    ∧ (reconcile g ((reconcile g ((reconcile g m).2)).2)).1 =
        (reconcile g ((reconcile g m).2)).1 := by
  have hm1 : (reconcile g m).2 = mapBranches (normBranch g) m :=
    reconcile_snd_eq g m hnd
  have hnd1 : (docNames ((reconcile g m).2)).Nodup := by
    rw [hm1, docNames_mapBranches (normBranch g) (fun b => rfl) m]
    exact hnd
  have hm2 : (reconcile g ((reconcile g m).2)).2 = (reconcile g m).2 := by
    rw [reconcile_snd_eq g _ hnd1, hm1, mapBranches_comp]
    congr 1
    funext b
    exact normBranch_idem g b
  refine ⟨hm2, ?_, ?_⟩
  · show (reconcileCollect g ((reconcile g m).2)).2 = (reconcileCollect g m).2
    rw [hm1]
    exact reconcileCollect_snd_mapBranches g (normBranch g) (fun b => rfl) m
  · rw [hm2]

/-- C4 witness: the amended theorem at the concrete stale-sha scenario. -/
theorem c4_reconcile_idem_witness :
    (reconcile c4view ((reconcile c4view c4md).2)).2 = (reconcile c4view c4md).2
    ∧ (reconcile c4view ((reconcile c4view c4md).2)).1.orphaned =
        (reconcile c4view c4md).1.orphaned
    ∧ (reconcile c4view
        ((reconcile c4view ((reconcile c4view c4md).2)).2)).1 =
        (reconcile c4view ((reconcile c4view c4md).2)).1 :=
  c4_reconcile_idem_amended c4view c4md (by decide)

end Maguffin
